import Mathlib

/-!
# Verification of the medical_scribe PHI protection subsystem

Shallow embedding of the two core components of the repository:

* `security/encryption.py` — `PHIEncryption` (AES-256-GCM envelope
  encryption with Azure Key Vault key resolution) and
  `FieldLevelEncryption` (field-level helpers over key-value records);
* `security/audit.py` — `AuditLogger` (append-only audit trail with an
  Azure Blob durable backend and a synchronous local sink).

Modelling conventions:

* Python `str` and `bytes` values handled by the cipher engine are
  modelled by their byte sequences (`List Nat`, each element `< 256`
  where it matters).  `encode("utf-8")` / `decode("utf-8")` are then the
  identity and are dropped.
* The AES-GCM primitive (`cryptography.hazmat...AESGCM`) is a
  third-party library, not repository code.  It is modelled as an
  abstract pair of functions `AEADImpl` supplied as a parameter;
  theorems take the AEAD properties they rely on (round trip,
  authentication failure on a mismatched key or associated data) as
  hypotheses at the points where the source relies on them.
* `os.urandom` draws (the 12-byte nonce, the development-mode 32-byte
  key) are modelled as explicit inputs.
* Python base64 (`base64.b64encode` / `b64decode`) is implemented
  concretely on byte lists (standard alphabet, `=` padding).
* Fallible Python code (raising exceptions) returns `Except`.
-/

/-! ## Bytes and base64 -/

/-- Byte strings: Python `bytes` / `str` values as lists of byte values. -/
abbrev Bytes := List Nat

/-- The standard base64 alphabet, as ASCII byte values
(`A`-`Z`, `a`-`z`, `0`-`9`, `+`, `/`). -/
def b64Table : Bytes :=
  ((List.range 26).map (fun i => 65 + i)) ++
  ((List.range 26).map (fun i => 97 + i)) ++
  ((List.range 10).map (fun i => 48 + i)) ++ [43, 47]

/-- The alphabet byte for a 6-bit index. -/
def idxToByte (i : Nat) : Nat := b64Table.getD i 0

/-- The 6-bit index of an alphabet byte (`none` for bytes outside the
alphabet, in particular for the padding byte `=` = 61). -/
def byteToIdx (b : Nat) : Option Nat := b64Table.findIdx? (fun x => x = b)

/-- `base64.b64encode` on byte lists: three input bytes become four
alphabet bytes; a final group of one or two bytes is padded with `=`. -/
def b64EncodeRaw : Bytes → Bytes
  | [] => []
  | [b1] => [idxToByte (b1 / 4), idxToByte (b1 % 4 * 16), 61, 61]
  | [b1, b2] => [idxToByte (b1 / 4), idxToByte (b1 % 4 * 16 + b2 / 16),
      idxToByte (b2 % 16 * 4), 61]
  | b1 :: b2 :: b3 :: rest =>
      idxToByte (b1 / 4) :: idxToByte (b1 % 4 * 16 + b2 / 16) ::
      idxToByte (b2 % 16 * 4 + b3 / 64) :: idxToByte (b3 % 64) ::
      b64EncodeRaw rest

/-- `base64.b64decode` on byte lists, for well-formed standard base64
(length a multiple of four, `=` padding only in the final group).
Python additionally ignores stray non-alphabet bytes before decoding;
no envelope produced by the code contains such bytes, so that
leniency is not modelled. -/
def b64DecodeRaw : Bytes → Option Bytes
  | [] => some []
  | c1 :: c2 :: c3 :: c4 :: rest =>
      if c3 = 61 ∧ c4 = 61 ∧ rest = [] then
        match byteToIdx c1, byteToIdx c2 with
        | some i1, some i2 => some [i1 * 4 + i2 / 16]
        | _, _ => none
      else if c4 = 61 ∧ rest = [] then
        match byteToIdx c1, byteToIdx c2, byteToIdx c3 with
        | some i1, some i2, some i3 =>
            some [i1 * 4 + i2 / 16, i2 % 16 * 16 + i3 / 4]
        | _, _, _ => none
      else
        match byteToIdx c1, byteToIdx c2, byteToIdx c3, byteToIdx c4,
            b64DecodeRaw rest with
        | some i1, some i2, some i3, some i4, some bs =>
            some ((i1 * 4 + i2 / 16) :: (i2 % 16 * 16 + i3 / 4) ::
              (i3 % 4 * 64 + i4) :: bs)
        | _, _, _, _, _ => none
  | _ => none

theorem byteToIdx_idxToByte : ∀ i, i < 64 → byteToIdx (idxToByte i) = some i := by
  decide

theorem idxToByte_ne_pad : ∀ i, i < 64 → idxToByte i ≠ 61 := by
  decide

theorem idxToByte_lt : ∀ i, idxToByte i < 256 := by
  intro i
  unfold idxToByte
  rcases Nat.lt_or_ge i b64Table.length with h | h
  · have hmem : b64Table.getD i 0 ∈ b64Table := by
      rw [List.getD_eq_getElem?_getD, List.getElem?_eq_getElem h]
      exact List.getElem_mem _
    revert hmem
    have : ∀ x ∈ b64Table, x < 256 := by decide
    intro hmem
    exact this _ hmem
  · rw [List.getD_eq_getElem?_getD, List.getElem?_eq_none h]
    decide

/-- Decoding inverts encoding on genuine byte lists. -/
theorem b64DecodeRaw_encodeRaw :
    ∀ bs : Bytes, (∀ b ∈ bs, b < 256) →
      b64DecodeRaw (b64EncodeRaw bs) = some bs := by
  intro bs
  induction bs using b64EncodeRaw.induct with
  | case1 => intro _; rfl
  | case2 b1 =>
    intro hb
    have h1 : b1 < 256 := hb b1 (by simp)
    have d1 : b1 / 4 < 64 := by omega
    have d2 : b1 % 4 * 16 < 64 := by omega
    have e1 : b1 / 4 * 4 + b1 % 4 * 16 / 16 = b1 := by omega
    simp [b64EncodeRaw, b64DecodeRaw,
      byteToIdx_idxToByte _ d1, byteToIdx_idxToByte _ d2]
    omega
  | case3 b1 b2 =>
    intro hb
    have h1 : b1 < 256 := hb b1 (by simp)
    have h2 : b2 < 256 := hb b2 (by simp)
    have d1 : b1 / 4 < 64 := by omega
    have d2 : b1 % 4 * 16 + b2 / 16 < 64 := by omega
    have d3 : b2 % 16 * 4 < 64 := by omega
    have hne3 : idxToByte (b2 % 16 * 4) ≠ 61 := idxToByte_ne_pad _ d3
    have e1 : b1 / 4 * 4 + (b1 % 4 * 16 + b2 / 16) / 16 = b1 := by omega
    have e2 : (b1 % 4 * 16 + b2 / 16) % 16 * 16 + b2 % 16 * 4 / 4 = b2 := by
      omega
    simp [b64EncodeRaw, b64DecodeRaw, hne3,
      byteToIdx_idxToByte _ d1, byteToIdx_idxToByte _ d2,
      byteToIdx_idxToByte _ d3]
    omega
  | case4 b1 b2 b3 rest ih =>
    intro hb
    have h1 : b1 < 256 := hb b1 (by simp)
    have h2 : b2 < 256 := hb b2 (by simp)
    have h3 : b3 < 256 := hb b3 (by simp)
    have d1 : b1 / 4 < 64 := by omega
    have d2 : b1 % 4 * 16 + b2 / 16 < 64 := by omega
    have d3 : b2 % 16 * 4 + b3 / 64 < 64 := by omega
    have d4 : b3 % 64 < 64 := by omega
    have hrest : b64DecodeRaw (b64EncodeRaw rest) = some rest :=
      ih (fun b hbm => hb b (by simp [hbm]))
    have hne3 : idxToByte (b2 % 16 * 4 + b3 / 64) ≠ 61 := idxToByte_ne_pad _ d3
    have hne4 : idxToByte (b3 % 64) ≠ 61 := idxToByte_ne_pad _ d4
    have e1 : b1 / 4 * 4 + (b1 % 4 * 16 + b2 / 16) / 16 = b1 := by omega
    have e2 : (b1 % 4 * 16 + b2 / 16) % 16 * 16 +
        (b2 % 16 * 4 + b3 / 64) / 4 = b2 := by omega
    have e3 : (b2 % 16 * 4 + b3 / 64) % 4 * 64 + b3 % 64 = b3 := by omega
    simp [b64EncodeRaw, b64DecodeRaw, hne3, hne4, hrest,
      byteToIdx_idxToByte _ d1, byteToIdx_idxToByte _ d2,
      byteToIdx_idxToByte _ d3, byteToIdx_idxToByte _ d4]
    omega

/-- Encoding a nonempty byte list yields a nonempty result. -/
theorem b64EncodeRaw_ne_nil : ∀ bs : Bytes, bs ≠ [] → b64EncodeRaw bs ≠ [] := by
  intro bs h
  match bs with
  | [] => exact absurd rfl h
  | [b1] => simp [b64EncodeRaw]
  | [b1, b2] => simp [b64EncodeRaw]
  | b1 :: b2 :: b3 :: rest => simp [b64EncodeRaw]

/-- Every byte of an encoding is a byte value (alphabet byte or `=`). -/
theorem b64EncodeRaw_lt : ∀ bs : Bytes, ∀ b ∈ b64EncodeRaw bs, b < 256 := by
  intro bs
  induction bs using b64EncodeRaw.induct with
  | case1 => intro b hb; simp [b64EncodeRaw] at hb
  | case2 b1 =>
    intro b hb
    simp only [b64EncodeRaw, List.mem_cons, List.mem_singleton] at hb
    rcases hb with h | h | h | h | h
    · exact h ▸ idxToByte_lt _
    · exact h ▸ idxToByte_lt _
    · omega
    · omega
    · simp at h
  | case3 b1 b2 =>
    intro b hb
    simp only [b64EncodeRaw, List.mem_cons, List.mem_singleton] at hb
    rcases hb with h | h | h | h | h
    · exact h ▸ idxToByte_lt _
    · exact h ▸ idxToByte_lt _
    · exact h ▸ idxToByte_lt _
    · omega
    · simp at h
  | case4 b1 b2 b3 rest ih =>
    intro b hb
    simp only [b64EncodeRaw, List.mem_cons] at hb
    rcases hb with h | h | h | h | h
    · exact h ▸ idxToByte_lt _
    · exact h ▸ idxToByte_lt _
    · exact h ▸ idxToByte_lt _
    · exact h ▸ idxToByte_lt _
    · exact ih b h

/-! ## The AEAD primitive (AES-256-GCM, third-party library)

`AESGCM(key).encrypt(nonce, plaintext, aad)` and
`AESGCM(key).decrypt(nonce, ciphertext, aad)` from the `cryptography`
package.  `enc` returns ciphertext-plus-tag; `dec` returns `none` when
tag verification fails (the library raises `InvalidTag`). -/

structure AEADImpl where
  enc : Bytes → Bytes → Bytes → Bytes → Bytes
  dec : Bytes → Bytes → Bytes → Bytes → Option Bytes

/-- A degenerate AEAD used to instantiate witnesses that need only the
round-trip law: the "ciphertext" is the plaintext and decryption always
succeeds. -/
def idAEAD : AEADImpl where
  enc := fun _ _ pt _ => pt
  dec := fun _ _ ct _ => some ct

/-- A degenerate AEAD used to instantiate witnesses that need
authentication failures: the ciphertext carries the plaintext length
followed by the plaintext, the key and the associated data, and
decryption checks the trailing key-plus-associated-data "tag". -/
def tagAEAD : AEADImpl where
  enc := fun k _ pt aad => pt.length :: pt ++ k ++ aad
  dec := fun k _ ct aad =>
    match ct with
    | [] => none
    | len :: body =>
        if body.drop len = k ++ aad then some (body.take len) else none

/-! ## PHIEncryption (`security/encryption.py`) -/

/-- Errors raised by the cipher engine.  The source logs and re-raises
the underlying exceptions; only the kind of failure is modelled. -/
inductive CryptoError
  | keyUnavailable
  | invalidEnvelope
  | authFailure
deriving DecidableEq

/-- The `PHIEncryption` object state: constructor arguments plus the
`_key_cache` attribute.  The Azure credential and `SecretClient` carry
no state relevant to the embedding. -/
structure PHIEncryption where
  key_vault_url : Option Bytes
  encryption_key_name : Bytes
  key_cache : Option Bytes
deriving DecidableEq

/-- Python truthiness of an `Optional[str]` / `Optional[bytes]` value:
`None` and the empty sequence are falsy. -/
def pyTruthyOpt : Option Bytes → Bool
  | some s => !s.isEmpty
  | none => false

/-- `PHIEncryption._get_encryption_key`.

`vault` models `SecretClient.get_secret` (secret name to base64-encoded
secret value, `none` when the fetch raises); `fresh` models the
`os.urandom(32)` draw of the development-mode branch.

Faithful to the source: the development-mode branch returns the fresh
key without writing `_key_cache`; only the Key Vault branch caches. -/
def PHIEncryption.getEncryptionKey (self : PHIEncryption)
    (vault : Bytes → Option Bytes) (fresh : Bytes) :
    Except CryptoError (Bytes × PHIEncryption) :=
  if pyTruthyOpt self.key_cache then
    .ok (self.key_cache.getD [], self)
  else if pyTruthyOpt self.key_vault_url = false then
    .ok (fresh, self)
  else
    match vault self.encryption_key_name with
    | none => .error .keyUnavailable
    | some secretValue =>
        match b64DecodeRaw secretValue with
        | none => .error .keyUnavailable
        | some key => .ok (key, { self with key_cache := some key })

/-- `aad = associated_data.encode("utf-8") if associated_data else b""`:
both the `None` and the empty-string case yield the empty byte string. -/
def aadBytes : Option Bytes → Bytes
  | some a => a
  | none => []

/-- `PHIEncryption.encrypt`: resolve the key, run AES-256-GCM on the
fresh 12-byte `nonce` with the associated data, concatenate
`nonce + ciphertext` and base64-encode. -/
def PHIEncryption.encrypt (A : AEADImpl) (self : PHIEncryption)
    (vault : Bytes → Option Bytes) (fresh : Bytes) (nonce : Bytes)
    (plaintext : Bytes) (associated_data : Option Bytes) :
    Except CryptoError (Bytes × PHIEncryption) :=
  match self.getEncryptionKey vault fresh with
  | .error e => .error e
  | .ok (key, self1) =>
      let ciphertext := A.enc key nonce plaintext (aadBytes associated_data)
      .ok (b64EncodeRaw (nonce ++ ciphertext), self1)

/-- `PHIEncryption.decrypt`: resolve the key, base64-decode, split the
first 12 bytes off as the nonce and the remainder as ciphertext-plus-tag,
and run AES-256-GCM verification and decryption. -/
def PHIEncryption.decrypt (A : AEADImpl) (self : PHIEncryption)
    (vault : Bytes → Option Bytes) (fresh : Bytes) (encrypted_data : Bytes)
    (associated_data : Option Bytes) :
    Except CryptoError (Bytes × PHIEncryption) :=
  match self.getEncryptionKey vault fresh with
  | .error e => .error e
  | .ok (key, self1) =>
      match b64DecodeRaw encrypted_data with
      | none => .error .invalidEnvelope
      | some data =>
          match A.dec key (data.take 12) (data.drop 12)
              (aadBytes associated_data) with
          | none => .error .authFailure
          | some plaintext => .ok (plaintext, self1)

/-! ## FieldLevelEncryption (`security/encryption.py`) -/

/-- Python values stored in the records handled by
`FieldLevelEncryption` (the kinds exercised by the repository and its
tests: strings, integers, booleans, `None`). -/
inductive PyValue
  | pyStr (s : Bytes)
  | pyInt (n : Int)
  | pyBool (b : Bool)
  | pyNone
deriving DecidableEq

/-- Python truthiness of a value. -/
def pyTruthy : PyValue → Bool
  | .pyStr s => !s.isEmpty
  | .pyInt n => n != 0
  | .pyBool b => b
  | .pyNone => false

/-- Python `str(value)`, as UTF-8 bytes. -/
def pyStrOf : PyValue → Bytes
  | .pyStr s => s
  | .pyInt n => (toString n).data.map Char.toNat
  | .pyBool b => ((if b then "True" else "False").data.map Char.toNat)
  | .pyNone => ("None".data.map Char.toNat)

/-- A Python `dict` in insertion order (keys are unique in Python). -/
abbrev Record := List (Bytes × PyValue)

/-- `data[field]` guarded by `field in data` (first matching key). -/
def getField : Record → Bytes → Option PyValue
  | [], _ => none
  | (k, v) :: rest, f => if k = f then some v else getField rest f

/-- `data[field] = value`: replace the value of an existing key, append
a fresh key at the end (Python dicts preserve insertion order). -/
def setField : Record → Bytes → PyValue → Record
  | [], f, v => [(f, v)]
  | (k, w) :: rest, f, v =>
      if k = f then (k, v) :: rest else (k, w) :: setField rest f v

/-- `FieldLevelEncryption.encrypt_fields`, starting from
`encrypted_data = data.copy()` and iterating over `sensitive_fields`:
a field that is present and truthy is coerced with `str(...)` and
encrypted with the field name as associated data.  `nonces` models the
successive `os.urandom(12)` draws, one consumed per encryption
performed. -/
def FieldLevelEncryption.encryptFields (A : AEADImpl)
    (vault : Bytes → Option Bytes) (fresh : Bytes) :
    PHIEncryption → List Bytes → Record → List Bytes →
    Except CryptoError (Record × PHIEncryption × List Bytes)
  | self, nonces, data, [] => .ok (data, self, nonces)
  | self, nonces, data, f :: rest =>
      match getField data f with
      | some v =>
          if pyTruthy v then
            match PHIEncryption.encrypt A self vault fresh (nonces.headD [])
                (pyStrOf v) (some f) with
            | .error e => .error e
            | .ok (env, self1) =>
                FieldLevelEncryption.encryptFields A vault fresh self1
                  nonces.tail (setField data f (.pyStr env)) rest
          else
            FieldLevelEncryption.encryptFields A vault fresh self nonces
              data rest
      | none =>
          FieldLevelEncryption.encryptFields A vault fresh self nonces
            data rest

/-- `FieldLevelEncryption.decrypt_fields`: a field that is present and
truthy is decrypted with the field name as associated data.  The source
passes the stored value to `decrypt` unchanged; a truthy non-string
value would make `base64.b64decode` raise inside `decrypt`, which
re-raises, modelled as `invalidEnvelope`. -/
def FieldLevelEncryption.decryptFields (A : AEADImpl)
    (vault : Bytes → Option Bytes) (fresh : Bytes) :
    PHIEncryption → Record → List Bytes →
    Except CryptoError (Record × PHIEncryption)
  | self, data, [] => .ok (data, self)
  | self, data, f :: rest =>
      match getField data f with
      | some v =>
          if pyTruthy v then
            match v with
            | .pyStr s =>
                match PHIEncryption.decrypt A self vault fresh s (some f) with
                | .error e => .error e
                | .ok (pt, self1) =>
                    FieldLevelEncryption.decryptFields A vault fresh self1
                      (setField data f (.pyStr pt)) rest
            | _ => .error .invalidEnvelope
          else
            FieldLevelEncryption.decryptFields A vault fresh self data rest
      | none =>
          FieldLevelEncryption.decryptFields A vault fresh self data rest

/-- Composition used to state round-trip facts about the field helpers:
encrypt the sensitive fields, then decrypt them with the same list,
returning the final record (`none` when either direction raises). -/
def fieldsRoundTrip (A : AEADImpl) (vault : Bytes → Option Bytes)
    (fresh : Bytes) (self : PHIEncryption) (nonces : List Bytes)
    (data : Record) (sensitive : List Bytes) : Option Record :=
  match FieldLevelEncryption.encryptFields A vault fresh self nonces
      data sensitive with
  | .error _ => none
  | .ok (data1, self1, _) =>
      match FieldLevelEncryption.decryptFields A vault fresh self1
          data1 sensitive with
      | .error _ => none
      | .ok (data2, _) => some data2

/-! ## AuditLogger (`security/audit.py`) -/

/-- `AuditEventType` (string enum in the source). -/
inductive AuditEventType
  | LOGIN_SUCCESS | LOGIN_FAILURE | LOGOUT | MFA_CHALLENGE
  | PHI_VIEW | PHI_CREATE | PHI_UPDATE | PHI_DELETE | PHI_EXPORT
  | SYSTEM_ACCESS | CONFIG_CHANGE | PERMISSION_CHANGE
  | SECURITY_VIOLATION | UNAUTHORIZED_ACCESS | ENCRYPTION_KEY_ACCESS
  | TRANSCRIPTION_START | TRANSCRIPTION_COMPLETE | SOAP_NOTE_GENERATED
  | ICD10_LOOKUP
deriving DecidableEq

/-- `AuditSeverity` (string enum in the source). -/
inductive AuditSeverity
  | INFO | WARNING | ERROR | CRITICAL
deriving DecidableEq

/-- The timestamp components consumed by the storage layer
(`timestamp.strftime("%Y/%m/%d")`).  The time-of-day part of the UTC
timestamp plays no role in any claim. -/
structure PyDatetime where
  year : Nat
  month : Nat
  day : Nat
deriving DecidableEq

/-- The `AuditEvent` pydantic model.  `event_id` and `timestamp` have
random/clock default factories in the source and are explicit here;
`metadata` is `dict[str, Any]`, restricted to string values, which no
claim inspects. -/
structure AuditEvent where
  event_id : String
  timestamp : PyDatetime
  event_type : AuditEventType
  severity : AuditSeverity := AuditSeverity.INFO
  user_id : Option String := none
  username : Option String := none
  role : Option String := none
  ip_address : Option String := none
  user_agent : Option String := none
  session_id : Option String := none
  resource_type : Option String := none
  resource_id : Option String := none
  patient_id_hash : Option String := none
  action : String
  result : String := "success"
  reason : Option String := none
  metadata : List (String × String) := []
  service_name : String := "medical-scribe-ai"
  environment : String := "production"
deriving DecidableEq

/-- The structured record emitted to the local synchronous sink by
`logger.info("audit_event", ...)` in `log_event`. -/
structure LocalLogRecord where
  event_id : String
  event_type : AuditEventType
  user_id : Option String
  action : String
  result : String
  severity : AuditSeverity
deriving DecidableEq

/-- The local-sink record built from an event. -/
def localRecordOf (e : AuditEvent) : LocalLogRecord :=
  { event_id := e.event_id, event_type := e.event_type,
    user_id := e.user_id, action := e.action, result := e.result,
    severity := e.severity }

/-- The durable backend: blob name to blob content.  Object metadata
(mirrored event fields) is carried alongside the serialized JSON by the
source; no claim reads it and it is not modelled. -/
abbrev BlobStore := List (String × String)

/-- Outcome of `blob_client.upload_blob(..., overwrite=False)`. -/
inductive UploadError
  | alreadyExists
  | backendUnreachable
deriving DecidableEq

/-- `upload_blob(event_json, overwrite=False)`: fails when the backend
is unreachable or when a blob of that name already exists. -/
def uploadBlob (reachable : Bool) (st : BlobStore) (name content : String) :
    Except UploadError BlobStore :=
  if reachable = false then .error .backendUnreachable
  else if st.any (fun p => p.1 = name) then .error .alreadyExists
  else .ok ((name, content) :: st)

/-- Zero-padded decimal rendering, as `strftime` produces
(`%Y` to four digits, `%m` and `%d` to two). -/
def padNum (w n : Nat) : String :=
  String.mk (List.replicate (w - (toString n).length) (Char.ofNat 48)) ++
    toString n

/-- `event.timestamp.strftime("%Y/%m/%d")`. -/
def datePartition (t : PyDatetime) : String :=
  padNum 4 t.year ++ "/" ++ padNum 2 t.month ++ "/" ++ padNum 2 t.day

/-- `blob_name = f"{date_partition}/{event.event_id}.json"`. -/
def blobName (e : AuditEvent) : String :=
  datePartition e.timestamp ++ "/" ++ e.event_id ++ ".json"

/-- `AuditLogger._write_to_storage`: attempt the create-only upload;
on any failure log locally and swallow (the source has a bare
`except Exception` with no `raise`).  Returns the possibly-updated
store and whether the durable write succeeded. -/
def writeToStorage (reachable : Bool) (st : BlobStore) (e : AuditEvent)
    (event_json : String) : BlobStore × Bool :=
  match uploadBlob reachable st (blobName e) event_json with
  | .ok st1 => (st1, true)
  | .error _ => (st, false)

/-- The `AuditLogger` configuration: `container_client` is present
exactly when a storage account URL was given to the constructor. -/
structure AuditLogger where
  container_configured : Bool
  local_backup : Bool
  container_name : String := "audit-logs"
deriving DecidableEq

/-- Failures of `log_event` that reach the caller. -/
inductive AuditLogError
  | localEmitFailure
deriving DecidableEq

/-- `AuditLogger.log_event`: serialize, emit to the local sink when
`local_backup` is set, then attempt the durable write when a container
is configured.  `localOk` models whether the local `logger.info` call
succeeds; when it raises, the `except` block re-raises, so nothing
later in the `try` body (in particular the durable write) runs.
`dump` models `event.model_dump_json(indent=2)`. -/
def AuditLogger.log_event (L : AuditLogger) (reachable localOk : Bool)
    (dump : AuditEvent → String) (st : BlobStore)
    (localSink : List LocalLogRecord) (event : AuditEvent) :
    Except AuditLogError (BlobStore × List LocalLogRecord) :=
  let event_json := dump event
  if L.local_backup then
    if localOk then
      let localSink1 := localSink ++ [localRecordOf event]
      if L.container_configured then
        .ok ((writeToStorage reachable st event event_json).1, localSink1)
      else
        .ok (st, localSink1)
    else
      .error .localEmitFailure
  else
    if L.container_configured then
      .ok ((writeToStorage reachable st event event_json).1, localSink)
    else
      .ok (st, localSink)

/-- ASCII lowercasing of one character (`str.lower` restricted to the
ASCII actions the source deals in). -/
def asciiLowerChar (c : Char) : Char :=
  if 65 ≤ c.toNat ∧ c.toNat ≤ 90 then Char.ofNat (c.toNat + 32) else c

/-- `action.lower()`. -/
def asciiLower (s : String) : String := String.mk (s.data.map asciiLowerChar)

/-- `AuditLogger._get_phi_event_type`: the `action_map` dictionary
lookup on `action.lower()`, defaulting to `PHI_VIEW`. -/
def AuditLogger.getPhiEventType (action : String) : AuditEventType :=
  let a := asciiLower action
  if a = "view" then .PHI_VIEW
  else if a = "read" then .PHI_VIEW
  else if a = "create" then .PHI_CREATE
  else if a = "update" then .PHI_UPDATE
  else if a = "modify" then .PHI_UPDATE
  else if a = "delete" then .PHI_DELETE
  else if a = "export" then .PHI_EXPORT
  else .PHI_VIEW

/-- The event built by `AuditLogger.log_phi_access` (which then hands it
to `log_event`).  `event_id` and `timestamp` stand for the pydantic
default factories. -/
def phiAccessEvent (event_id : String) (ts : PyDatetime) (user_id : String)
    (patient_id_hash : String) (action : String) (resource_type : String)
    (resource_id : String) (result : String) (ip_address : Option String)
    (metadata : List (String × String)) : AuditEvent :=
  { event_id := event_id, timestamp := ts,
    event_type := AuditLogger.getPhiEventType action,
    user_id := some user_id, patient_id_hash := some patient_id_hash,
    resource_type := some resource_type, resource_id := some resource_id,
    action := action, result := result, ip_address := ip_address,
    severity := if result = "success" then AuditSeverity.INFO
      else AuditSeverity.WARNING,
    metadata := metadata }

/-- The event built by `AuditLogger.log_authentication`. -/
def authenticationEvent (event_id : String) (ts : PyDatetime)
    (user_id : String) (success : Bool) (ip_address : Option String)
    (reason : Option String) : AuditEvent :=
  { event_id := event_id, timestamp := ts,
    event_type := if success then AuditEventType.LOGIN_SUCCESS
      else AuditEventType.LOGIN_FAILURE,
    user_id := some user_id, action := "authenticate",
    result := if success then "success" else "failure",
    reason := reason, ip_address := ip_address,
    severity := if success then AuditSeverity.INFO
      else AuditSeverity.WARNING }

/-! ## Helper lemmas about records -/

theorem getField_setField_self (r : Record) (f : Bytes) (v : PyValue) :
    getField (setField r f v) f = some v := by
  induction r with
  | nil => simp [setField, getField]
  | cons p rest ih =>
    obtain ⟨k, w⟩ := p
    by_cases h : k = f
    · simp [setField, getField, h]
    · simp [setField, getField, h, ih]

theorem getField_setField_ne (r : Record) (f g : Bytes) (v : PyValue)
    (h : g ≠ f) : getField (setField r f v) g = getField r g := by
  induction r with
  | nil => simp [setField, getField, Ne.symm h]
  | cons p rest ih =>
    obtain ⟨k, w⟩ := p
    by_cases hk : k = f
    · subst hk
      simp [setField, getField, Ne.symm h]
    · simp [setField, getField, hk, ih]

theorem setField_setField (r : Record) (f : Bytes) (v w : PyValue) :
    setField (setField r f v) f w = setField r f w := by
  induction r with
  | nil => simp [setField]
  | cons p rest ih =>
    obtain ⟨k, u⟩ := p
    by_cases h : k = f
    · simp [setField, h]
    · simp [setField, h, ih]

theorem setField_comm (r : Record) (f g : Bytes) (v w : PyValue)
    (h : f ≠ g) (hf : (getField r f).isSome) :
    setField (setField r f v) g w = setField (setField r g w) f v := by
  induction r with
  | nil => simp [getField] at hf
  | cons p rest ih =>
    obtain ⟨k, u⟩ := p
    by_cases hkf : k = f
    · subst hkf
      simp [setField, h]
    · by_cases hkg : k = g
      · subst hkg
        simp [setField, hkf]
      · have hf1 : (getField rest f).isSome := by
          simpa [getField, hkf] using hf
        simp [setField, hkf, hkg, ih hf1]

theorem mem_setField (r : Record) (f : Bytes) (v : PyValue)
    (p : Bytes × PyValue) (h : p ∈ setField r f v) : p ∈ r ∨ p = (f, v) := by
  induction r with
  | nil =>
    simp [setField] at h
    exact Or.inr h
  | cons q rest ih =>
    obtain ⟨k, w⟩ := q
    by_cases hk : k = f
    · subst hk
      simp [setField] at h
      rcases h with h | h
      · exact Or.inr (by simp [h])
      · exact Or.inl (by simp [h])
    · simp [setField, hk] at h
      rcases h with h | h
      · exact Or.inl (by simp [h])
      · rcases ih h with h1 | h1
        · exact Or.inl (by simp [h1])
        · exact Or.inr h1

theorem keys_setField_present (r : Record) (f : Bytes) (v : PyValue)
    (h : (getField r f).isSome) :
    (setField r f v).map Prod.fst = r.map Prod.fst := by
  induction r with
  | nil => simp [getField] at h
  | cons p rest ih =>
    obtain ⟨k, w⟩ := p
    by_cases hk : k = f
    · simp [setField, hk]
    · have h1 : (getField rest f).isSome := by
        simpa [getField, hk] using h
      simp [setField, hk, ih h1]

theorem getField_mem (r : Record) (f : Bytes) (v : PyValue)
    (h : getField r f = some v) : (f, v) ∈ r := by
  induction r with
  | nil => simp [getField] at h
  | cons p rest ih =>
    obtain ⟨k, w⟩ := p
    by_cases hk : k = f
    · subst hk
      simp [getField] at h
      simp [h]
    · simp only [getField, if_neg hk] at h
      exact List.mem_cons_of_mem _ (ih h)

theorem getField_of_mem_nodup (r : Record) (f : Bytes) (u : PyValue)
    (hnd : (r.map Prod.fst).Nodup) (h : (f, u) ∈ r) :
    getField r f = some u := by
  induction r with
  | nil => simp at h
  | cons p rest ih =>
    obtain ⟨k, w⟩ := p
    rw [List.map_cons, List.nodup_cons] at hnd
    rcases List.mem_cons.mp h with h1 | h1
    · rw [show f = k from congrArg Prod.fst h1,
        show u = w from congrArg Prod.snd h1]
      simp [getField]
    · have hk : k ≠ f := by
        rintro rfl
        exact hnd.1 (List.mem_map.mpr ⟨_, h1, rfl⟩)
      simp only [getField, if_neg hk]
      exact ih hnd.2 h1

theorem getField_none_of_not_key (r : Record) (f : Bytes)
    (h : getField r f = none) : ∀ p ∈ r, p.1 ≠ f := by
  induction r with
  | nil => intro p hp; simp at hp
  | cons q rest ih =>
    obtain ⟨k, w⟩ := q
    by_cases hk : k = f
    · simp [getField, hk] at h
    · simp only [getField, if_neg hk] at h
      intro p hp
      rcases List.mem_cons.mp hp with h1 | h1
      · rw [h1]
        exact hk
      · exact ih h p h1

/-! ## Helper lemmas about the cipher engine with a cached key -/

theorem getKey_cached (url : Option Bytes) (name k : Bytes)
    (vault : Bytes → Option Bytes) (fresh : Bytes) (hk : k ≠ []) :
    PHIEncryption.getEncryptionKey ⟨url, name, some k⟩ vault fresh =
      .ok (k, ⟨url, name, some k⟩) := by
  simp [PHIEncryption.getEncryptionKey, pyTruthyOpt, hk]

theorem encrypt_cached (A : AEADImpl) (url : Option Bytes) (name k : Bytes)
    (vault : Bytes → Option Bytes) (fresh nonce pt : Bytes)
    (aad : Option Bytes) (hk : k ≠ []) :
    PHIEncryption.encrypt A ⟨url, name, some k⟩ vault fresh nonce pt aad =
      .ok (b64EncodeRaw (nonce ++ A.enc k nonce pt (aadBytes aad)),
        ⟨url, name, some k⟩) := by
  simp [PHIEncryption.encrypt, getKey_cached url name k vault fresh hk]

theorem take12_append (n ct : Bytes) (h : n.length = 12) :
    (n ++ ct).take 12 = n := by
  rw [← h]
  exact List.take_left n ct

theorem drop12_append (n ct : Bytes) (h : n.length = 12) :
    (n ++ ct).drop 12 = ct := by
  rw [← h]
  exact List.drop_left n ct

/-- Decryption of a well-formed envelope under a cached key: base64
round trip, split at byte 12, then the AEAD verdict decides. -/
theorem decrypt_cached_envelope (A : AEADImpl) (url : Option Bytes)
    (name k : Bytes) (vault : Bytes → Option Bytes) (fresh nonce ct : Bytes)
    (aad : Option Bytes) (hk : k ≠ []) (hn : nonce.length = 12)
    (hnb : ∀ b ∈ nonce, b < 256) (hcb : ∀ b ∈ ct, b < 256) :
    PHIEncryption.decrypt A ⟨url, name, some k⟩ vault fresh
        (b64EncodeRaw (nonce ++ ct)) aad =
      match A.dec k nonce ct (aadBytes aad) with
      | none => .error .authFailure
      | some pt => .ok (pt, ⟨url, name, some k⟩) := by
  have hbytes : ∀ b ∈ nonce ++ ct, b < 256 := by
    intro b hb
    rcases List.mem_append.mp hb with h | h
    · exact hnb b h
    · exact hcb b h
  simp [PHIEncryption.decrypt, getKey_cached url name k vault fresh hk,
    b64DecodeRaw_encodeRaw _ hbytes, take12_append nonce ct hn,
    drop12_append nonce ct hn]

/-! ## Helper lemmas about the field-level helpers -/

/-- `encrypt_fields` never touches a field outside the sensitive list. -/
theorem encryptFields_frame (A : AEADImpl) (vault : Bytes → Option Bytes)
    (fresh : Bytes) :
    ∀ (sensitive : List Bytes) (self : PHIEncryption) (nonces : List Bytes)
      (data data1 : Record) (self1 : PHIEncryption) (nonces1 : List Bytes),
      FieldLevelEncryption.encryptFields A vault fresh self nonces data
        sensitive = .ok (data1, self1, nonces1) →
      ∀ g, g ∉ sensitive → getField data1 g = getField data g := by
  intro sensitive
  induction sensitive with
  | nil =>
    intro self nonces data data1 self1 nonces1 h g hg
    simp only [FieldLevelEncryption.encryptFields, Except.ok.injEq,
      Prod.mk.injEq] at h
    rw [← h.1]
  | cons f rest ih =>
    intro self nonces data data1 self1 nonces1 h g hg
    have hgf : g ≠ f := fun hh => hg (hh ▸ List.mem_cons_self f rest)
    have hgr : g ∉ rest := fun hh => hg (List.mem_cons_of_mem f hh)
    simp only [FieldLevelEncryption.encryptFields] at h
    cases hv : getField data f with
    | none =>
      simp only [hv] at h
      exact ih self nonces data data1 self1 nonces1 h g hgr
    | some v =>
      by_cases ht : pyTruthy v
      · simp only [hv, ht, if_true] at h
        cases he : PHIEncryption.encrypt A self vault fresh (nonces.headD [])
            (pyStrOf v) (some f) with
        | error e =>
          simp only [he] at h
          cases h
        | ok pr =>
          obtain ⟨env, self2⟩ := pr
          simp only [he] at h
          have := ih self2 nonces.tail (setField data f (.pyStr env))
            data1 self1 nonces1 h g hgr
          rw [this, getField_setField_ne data f g _ hgf]
      · simp only [hv, ht, if_false, Bool.false_eq_true] at h
        exact ih self nonces data data1 self1 nonces1 h g hgr

/-- `decrypt_fields` commutes with overwriting a field outside the
sensitive list (used to peel off the head of the list in round-trip
arguments). -/
theorem decryptFields_setField (A : AEADImpl) (vault : Bytes → Option Bytes)
    (fresh : Bytes) :
    ∀ (sensitive : List Bytes) (self : PHIEncryption) (data : Record)
      (f : Bytes) (w : PyValue), f ∉ sensitive → (getField data f).isSome →
      FieldLevelEncryption.decryptFields A vault fresh self
          (setField data f w) sensitive =
        match FieldLevelEncryption.decryptFields A vault fresh self data
            sensitive with
        | .ok (d, s) => .ok (setField d f w, s)
        | .error e => .error e := by
  intro sensitive
  induction sensitive with
  | nil =>
    intro self data f w hf hp
    simp [FieldLevelEncryption.decryptFields]
  | cons g rest ih =>
    intro self data f w hf hp
    have hfg : f ≠ g := fun hh => hf (hh ▸ List.mem_cons_self g rest)
    have hfr : f ∉ rest := fun hh => hf (List.mem_cons_of_mem g hh)
    have hget : getField (setField data f w) g = getField data g :=
      getField_setField_ne data f g w (Ne.symm hfg)
    simp only [FieldLevelEncryption.decryptFields, hget]
    cases hv : getField data g with
    | none => exact ih self data f w hfr hp
    | some v =>
      by_cases ht : pyTruthy v
      · cases v with
        | pyStr sv =>
          cases hd : PHIEncryption.decrypt A self vault fresh sv (some g) with
          | error e => simp [ht, hd]
          | ok pr =>
            obtain ⟨pt, self1⟩ := pr
            simp only [ht, if_true, hd]
            rw [setField_comm data f g w (.pyStr pt) hfg hp]
            have hp1 : (getField (setField data g (.pyStr pt)) f).isSome := by
              rw [getField_setField_ne data g f _ hfg]
              exact hp
            exact ih self1 (setField data g (.pyStr pt)) f w hfr hp1
        | pyInt n => simp [ht]
        | pyBool b => simp [ht]
        | pyNone => simp [ht]
      · simp only [ht, if_false, Bool.false_eq_true]
        exact ih self data f w hfr hp

/-- The record produced by a successful encrypt-then-decrypt round trip
of the field helpers: every sensitive, present, truthy field holds the
`str(...)` form of its original value; every other entry is untouched. -/
def sensMap (sensitive : List Bytes) : Record → Record :=
  List.map (fun p => if p.1 ∈ sensitive ∧ pyTruthy p.2
    then (p.1, PyValue.pyStr (pyStrOf p.2)) else p)

theorem sensMap_cons_not_key (rest : List Bytes) (data : Record) (f : Bytes)
    (h : ∀ p ∈ data, p.1 ≠ f) :
    sensMap (f :: rest) data = sensMap rest data := by
  unfold sensMap
  apply List.map_congr_left
  intro p hp
  have hne := h p hp
  simp [List.mem_cons, hne]

theorem sensMap_cons_falsy (rest : List Bytes) (data : Record) (f : Bytes)
    (v : PyValue) (hnod : (data.map Prod.fst).Nodup)
    (hv : getField data f = some v) (ht : pyTruthy v = false) :
    sensMap (f :: rest) data = sensMap rest data := by
  unfold sensMap
  apply List.map_congr_left
  intro p hp
  obtain ⟨g, u⟩ := p
  by_cases hg : g = f
  · subst hg
    have hu : u = v := by
      have := getField_of_mem_nodup data g u hnod hp
      rw [this] at hv
      exact Option.some.injEq u v ▸ hv
    simp [hu, ht]
  · simp [List.mem_cons, hg]

theorem final_record_eq (rest : List Bytes) (data : Record) (f : Bytes)
    (v w : PyValue) (hnod : (data.map Prod.fst).Nodup)
    (hv : getField data f = some v) (ht : pyTruthy v = true)
    (hf : f ∉ rest) :
    setField (sensMap rest (setField data f w)) f
        (PyValue.pyStr (pyStrOf v)) = sensMap (f :: rest) data := by
  induction data with
  | nil => simp [getField] at hv
  | cons q tl ih =>
    obtain ⟨g, u⟩ := q
    rw [List.map_cons, List.nodup_cons] at hnod
    by_cases hg : g = f
    · subst hg
      have hu : u = v := by
        simp only [getField, if_pos rfl] at hv
        exact Option.some.injEq u v ▸ hv
      subst hu
      have hhead : setField ((g, u) :: tl) g w = (g, w) :: tl := by
        simp [setField]
      rw [hhead]
      unfold sensMap
      rw [List.map_cons]
      have hcond : ¬ ((g, w).1 ∈ rest ∧ pyTruthy (g, w).2) := by
        intro hc
        exact hf hc.1
      rw [if_neg hcond]
      have hset : setField ((g, w) ::
          tl.map (fun p => if p.1 ∈ rest ∧ pyTruthy p.2
            then (p.1, PyValue.pyStr (pyStrOf p.2)) else p)) g
          (PyValue.pyStr (pyStrOf u)) =
          (g, PyValue.pyStr (pyStrOf u)) ::
          tl.map (fun p => if p.1 ∈ rest ∧ pyTruthy p.2
            then (p.1, PyValue.pyStr (pyStrOf p.2)) else p) := by
        simp [setField]
      rw [hset, List.map_cons]
      have hcond2 : (g, u).1 ∈ g :: rest ∧ pyTruthy (g, u).2 := by
        exact ⟨List.mem_cons_self g rest, ht⟩
      rw [if_pos hcond2]
      have htl : tl.map (fun p => if p.1 ∈ rest ∧ pyTruthy p.2
            then (p.1, PyValue.pyStr (pyStrOf p.2)) else p) =
          tl.map (fun p => if p.1 ∈ g :: rest ∧ pyTruthy p.2
            then (p.1, PyValue.pyStr (pyStrOf p.2)) else p) := by
        apply List.map_congr_left
        intro p hp
        have hne : p.1 ≠ g := by
          intro hh
          exact hnod.1 (hh ▸ List.mem_map.mpr ⟨p, hp, rfl⟩)
        simp [List.mem_cons, hne]
      rw [htl]
    · have hvtl : getField tl f = some v := by
        simpa [getField, hg] using hv
      have hhead : setField ((g, u) :: tl) f w = (g, u) :: setField tl f w := by
        simp [setField, hg]
      rw [hhead]
      unfold sensMap
      rw [List.map_cons]
      by_cases hc : (g, u).1 ∈ rest ∧ pyTruthy (g, u).2
      · rw [if_pos hc]
        have hkey : (g, PyValue.pyStr (pyStrOf u)).1 ≠ f := hg
        have hsf : setField ((g, PyValue.pyStr (pyStrOf u)) ::
            (setField tl f w).map (fun p => if p.1 ∈ rest ∧ pyTruthy p.2
              then (p.1, PyValue.pyStr (pyStrOf p.2)) else p)) f
            (PyValue.pyStr (pyStrOf v)) =
            (g, PyValue.pyStr (pyStrOf u)) ::
            setField ((setField tl f w).map
              (fun p => if p.1 ∈ rest ∧ pyTruthy p.2
                then (p.1, PyValue.pyStr (pyStrOf p.2)) else p)) f
            (PyValue.pyStr (pyStrOf v)) := by
          simp [setField, hg]
        rw [hsf]
        have := ih hnod.2 hvtl
        unfold sensMap at this
        rw [this, List.map_cons]
        have hc2 : (g, u).1 ∈ f :: rest ∧ pyTruthy (g, u).2 :=
          ⟨List.mem_cons_of_mem f hc.1, hc.2⟩
        rw [if_pos hc2]
      · rw [if_neg hc]
        have hsf : setField ((g, u) ::
            (setField tl f w).map (fun p => if p.1 ∈ rest ∧ pyTruthy p.2
              then (p.1, PyValue.pyStr (pyStrOf p.2)) else p)) f
            (PyValue.pyStr (pyStrOf v)) =
            (g, u) :: setField ((setField tl f w).map
              (fun p => if p.1 ∈ rest ∧ pyTruthy p.2
                then (p.1, PyValue.pyStr (pyStrOf p.2)) else p)) f
            (PyValue.pyStr (pyStrOf v)) := by
          simp [setField, hg]
        rw [hsf]
        have := ih hnod.2 hvtl
        unfold sensMap at this
        rw [this, List.map_cons]
        have hc2 : ¬ ((g, u).1 ∈ f :: rest ∧ pyTruthy (g, u).2) := by
          intro hh
          rcases List.mem_cons.mp hh.1 with h1 | h1
          · exact hg h1
          · exact hc ⟨h1, hh.2⟩
        rw [if_neg hc2]

/-- Round trip of the field-level helpers under a cached key: encrypting
the sensitive fields and decrypting them with the same list succeeds and
maps every sensitive present truthy field to the string form of its
original value, leaving everything else untouched. -/
theorem fieldsRoundTrip_aux (A : AEADImpl) (vault : Bytes → Option Bytes)
    (url : Option Bytes) (name k fresh : Bytes) (hk : k ≠ [])
    (hA : ∀ n pt aad, A.dec k n (A.enc k n pt aad) aad = some pt) :
    ∀ (sensitive : List Bytes) (data : Record) (nonces : List Bytes),
      sensitive.Nodup → (data.map Prod.fst).Nodup →
      sensitive.length ≤ nonces.length →
      (∀ nc ∈ nonces, nc.length = 12 ∧ ∀ b ∈ nc, b < 256) →
      (∀ nc ∈ nonces, ∀ p ∈ data, p.1 ∈ sensitive →
        ∀ b ∈ A.enc k nc (pyStrOf p.2) p.1, b < 256) →
      ∃ data1 nonces1,
        FieldLevelEncryption.encryptFields A vault fresh ⟨url, name, some k⟩
          nonces data sensitive = .ok (data1, ⟨url, name, some k⟩, nonces1) ∧
        FieldLevelEncryption.decryptFields A vault fresh ⟨url, name, some k⟩
          data1 sensitive =
          .ok (sensMap sensitive data, ⟨url, name, some k⟩) := by
  intro sensitive
  induction sensitive with
  | nil =>
    intro data nonces _ _ _ _ _
    refine ⟨data, nonces, rfl, ?_⟩
    simp [FieldLevelEncryption.decryptFields, sensMap]
  | cons f rest ih =>
    intro data nonces hnods hnodk hlen hn hC
    rw [List.nodup_cons] at hnods
    obtain ⟨hfrest, hrest⟩ := hnods
    cases nonces with
    | nil => simp at hlen
    | cons n0 nt =>
      have hn0 := hn n0 (List.mem_cons_self n0 nt)
      have hlen1 : rest.length ≤ nt.length := by
        simp only [List.length_cons] at hlen
        omega
      cases hv : getField data f with
      | none =>
        have hnokey := getField_none_of_not_key data f hv
        obtain ⟨data1, nonces1, he, hd⟩ := ih data (n0 :: nt) hrest hnodk
          (by simp only [List.length_cons]; omega) hn
          (fun nc hnc p hp hps => hC nc hnc p hp (List.mem_cons_of_mem f hps))
        refine ⟨data1, nonces1, ?_, ?_⟩
        · simp only [FieldLevelEncryption.encryptFields, hv]
          exact he
        · have hget1 : getField data1 f = none := by
            rw [encryptFields_frame A vault fresh rest _ _ _ _ _ _ he f hfrest]
            exact hv
          simp only [FieldLevelEncryption.decryptFields, hget1]
          rw [hd, sensMap_cons_not_key rest data f hnokey]
      | some v =>
        by_cases ht : pyTruthy v
        case neg =>
          obtain ⟨data1, nonces1, he, hd⟩ := ih data (n0 :: nt) hrest hnodk
            (by simp only [List.length_cons]; omega) hn
            (fun nc hnc p hp hps =>
              hC nc hnc p hp (List.mem_cons_of_mem f hps))
          refine ⟨data1, nonces1, ?_, ?_⟩
          · simp only [FieldLevelEncryption.encryptFields, hv, ht, if_false,
              Bool.false_eq_true]
            exact he
          · have hget1 : getField data1 f = some v := by
              rw [encryptFields_frame A vault fresh rest _ _ _ _ _ _ he
                f hfrest]
              exact hv
            simp only [FieldLevelEncryption.decryptFields, hget1, ht,
              if_false, Bool.false_eq_true]
            rw [hd, sensMap_cons_falsy rest data f v hnodk hv
              (by simpa using ht)]
        case pos =>
          have henc := encrypt_cached A url name k vault fresh n0 (pyStrOf v)
            (some f) hk
          have hctb : ∀ b ∈ A.enc k n0 (pyStrOf v) (aadBytes (some f)),
              b < 256 := by
            have := hC n0 (List.mem_cons_self n0 nt) (f, v)
              (getField_mem data f v hv) (List.mem_cons_self f rest)
            exact this
          have hkeysf : ((setField data f
              (PyValue.pyStr (b64EncodeRaw (n0 ++ A.enc k n0 (pyStrOf v)
                (aadBytes (some f)))))).map Prod.fst).Nodup := by
            rw [keys_setField_present data f _ (by rw [hv]; rfl)]
            exact hnodk
          obtain ⟨data1, nonces1, he, hd⟩ := ih
            (setField data f (PyValue.pyStr (b64EncodeRaw
              (n0 ++ A.enc k n0 (pyStrOf v) (aadBytes (some f)))))) nt
            hrest hkeysf hlen1
            (fun nc hnc => hn nc (List.mem_cons_of_mem n0 hnc))
            (by
              intro nc hnc p hp hps
              rcases mem_setField data f _ p hp with hmem | hmem
              · exact hC nc (List.mem_cons_of_mem n0 hnc) p hmem
                  (List.mem_cons_of_mem f hps)
              · rw [hmem] at hps
                exact absurd hps hfrest)
          refine ⟨data1, nonces1, ?_, ?_⟩
          · simp only [FieldLevelEncryption.encryptFields, hv, ht, if_true,
              List.headD_cons, List.tail_cons, henc]
            exact he
          · have hget1 : getField data1 f = some (PyValue.pyStr
                (b64EncodeRaw (n0 ++ A.enc k n0 (pyStrOf v)
                  (aadBytes (some f))))) := by
              rw [encryptFields_frame A vault fresh rest _ _ _ _ _ _ he
                f hfrest]
              exact getField_setField_self data f _
            have henvne : b64EncodeRaw (n0 ++ A.enc k n0 (pyStrOf v)
                (aadBytes (some f))) ≠ [] := by
              apply b64EncodeRaw_ne_nil
              intro habs
              have hlen0 := congrArg List.length habs
              simp only [List.length_append, List.length_nil] at hlen0
              omega
            have htruthy : pyTruthy (PyValue.pyStr (b64EncodeRaw
                (n0 ++ A.enc k n0 (pyStrOf v) (aadBytes (some f))))) = true := by
              simp [pyTruthy, List.isEmpty_iff, henvne]
            have hdec1 : PHIEncryption.decrypt A ⟨url, name, some k⟩ vault
                fresh (b64EncodeRaw (n0 ++ A.enc k n0 (pyStrOf v)
                  (aadBytes (some f)))) (some f) =
                .ok (pyStrOf v, ⟨url, name, some k⟩) := by
              rw [decrypt_cached_envelope A url name k vault fresh n0 _
                (some f) hk hn0.1 hn0.2 hctb]
              rw [hA n0 (pyStrOf v) (aadBytes (some f))]
            simp only [FieldLevelEncryption.decryptFields, hget1, htruthy,
              if_true, hdec1]
            rw [decryptFields_setField A vault fresh rest _ data1 f
              (PyValue.pyStr (pyStrOf v)) hfrest (by rw [hget1]; rfl)]
            rw [hd]
            simp only [final_record_eq rest data f v _ hnodk hv
              (by simpa using ht) hfrest]

/-- Decidable equality of `Except` results, so that witnesses can be
checked by evaluation. -/
instance {e a : Type} [DecidableEq e] [DecidableEq a] :
    DecidableEq (Except e a) := fun x y =>
  match x, y with
  | .error e1, .error e2 =>
      if h : e1 = e2 then isTrue (congrArg Except.error h)
      else isFalse (fun hh => h (by injection hh))
  | .ok v1, .ok v2 =>
      if h : v1 = v2 then isTrue (congrArg Except.ok h)
      else isFalse (fun hh => h (by injection hh))
  | .error _, .ok _ => isFalse (fun hh => by injection hh)
  | .ok _, .error _ => isFalse (fun hh => by injection hh)

/-! ## Claim theorems -/

theorem getKey_dev (name : Bytes) (vault : Bytes → Option Bytes)
    (fresh : Bytes) :
    PHIEncryption.getEncryptionKey ⟨none, name, none⟩ vault fresh =
      .ok (fresh, ⟨none, name, none⟩) := by
  simp [PHIEncryption.getEncryptionKey, pyTruthyOpt]

/-- C1.  The claim `decrypt(encrypt(s, a), a) = s` fails on the code in
development mode (no Key Vault configured): `_get_encryption_key` then
returns a fresh `os.urandom(32)` draw on every call and never populates
`_key_cache`, so `decrypt` verifies the tag under a different key `k2`
than the `k1` used by `encrypt` and raises an authentication failure
instead of returning the plaintext.  The second component of the
`encrypt` result shows the state after the call: the cache is still
empty.  (`hdec` is the GCM guarantee that a tag made under `k1` does not
verify under `k2`.)  The repository test suite constructs exactly this
configuration (`PHIEncryption()` in `tests/test_encryption.py`) and
expects the round trip to succeed, so the claim reflects the intent and
the code is the slip. -/
theorem encrypt_decrypt_dev_mode_fails (A : AEADImpl)
    (vault : Bytes → Option Bytes) (name k1 k2 nonce pt : Bytes)
    (aad : Option Bytes)
    (hn : nonce.length = 12) (hnb : ∀ b ∈ nonce, b < 256)
    (hcb : ∀ b ∈ A.enc k1 nonce pt (aadBytes aad), b < 256)
    (hdec : A.dec k2 nonce (A.enc k1 nonce pt (aadBytes aad))
      (aadBytes aad) = none) :
    PHIEncryption.encrypt A ⟨none, name, none⟩ vault k1 nonce pt aad =
      .ok (b64EncodeRaw (nonce ++ A.enc k1 nonce pt (aadBytes aad)),
        ⟨none, name, none⟩) ∧
    PHIEncryption.decrypt A ⟨none, name, none⟩ vault k2
      (b64EncodeRaw (nonce ++ A.enc k1 nonce pt (aadBytes aad))) aad =
      .error .authFailure := by
  have hball : ∀ b ∈ nonce ++ A.enc k1 nonce pt (aadBytes aad), b < 256 := by
    intro b hb
    rcases List.mem_append.mp hb with h | h
    · exact hnb b h
    · exact hcb b h
  constructor
  · simp [PHIEncryption.encrypt, getKey_dev]
  · simp [PHIEncryption.decrypt, getKey_dev,
      b64DecodeRaw_encodeRaw _ hball, take12_append _ _ hn,
      drop12_append _ _ hn, hdec]

theorem encrypt_decrypt_dev_mode_fails_witness :
    tagAEAD.dec [2] (List.replicate 12 0)
      (tagAEAD.enc [1] (List.replicate 12 0) [5] (aadBytes none))
      (aadBytes none) = none ∧
    (PHIEncryption.encrypt tagAEAD ⟨none, [110], none⟩ (fun _ => none) [1]
      (List.replicate 12 0) [5] none =
      .ok (b64EncodeRaw (List.replicate 12 0 ++
        tagAEAD.enc [1] (List.replicate 12 0) [5] (aadBytes none)),
        ⟨none, [110], none⟩) ∧
    PHIEncryption.decrypt tagAEAD ⟨none, [110], none⟩ (fun _ => none) [2]
      (b64EncodeRaw (List.replicate 12 0 ++
        tagAEAD.enc [1] (List.replicate 12 0) [5] (aadBytes none))) none =
      .error .authFailure) :=
  ⟨by decide,
    encrypt_decrypt_dev_mode_fails tagAEAD (fun _ => none) [110] [1] [2]
      (List.replicate 12 0) [5] none (by decide) (by decide) (by decide)
      (by decide)⟩

/-- C2.  With the process key `k` in place (cache populated, as after
any successful Key Vault fetch), decrypting an envelope produced under
associated data `a1` with a different associated data `a2` fails with
the authentication-failure error and yields no plaintext: `decrypt`
re-raises the library's `InvalidTag` (hypothesis `hdec` is the GCM
guarantee that the tag does not verify under mismatched associated
data), and the error value carries no partial result. -/
theorem decrypt_wrong_aad_auth_failure (A : AEADImpl) (url : Option Bytes)
    (name k fresh nonce pt a1 a2 : Bytes) (vault : Bytes → Option Bytes)
    (hk : k ≠ []) (hne : a1 ≠ a2) (hn : nonce.length = 12)
    (hnb : ∀ b ∈ nonce, b < 256)
    (hcb : ∀ b ∈ A.enc k nonce pt a1, b < 256)
    (hdec : A.dec k nonce (A.enc k nonce pt a1) a2 = none) :
    PHIEncryption.encrypt A ⟨url, name, some k⟩ vault fresh nonce pt
      (some a1) =
      .ok (b64EncodeRaw (nonce ++ A.enc k nonce pt a1),
        ⟨url, name, some k⟩) ∧
    PHIEncryption.decrypt A ⟨url, name, some k⟩ vault fresh
      (b64EncodeRaw (nonce ++ A.enc k nonce pt a1)) (some a2) =
      .error .authFailure := by
  constructor
  · have := encrypt_cached A url name k vault fresh nonce pt (some a1) hk
    simpa [aadBytes] using this
  · rw [decrypt_cached_envelope A url name k vault fresh nonce _ (some a2)
      hk hn hnb hcb]
    simp [aadBytes, hdec]

theorem decrypt_wrong_aad_auth_failure_witness :
    ([7] : Bytes) ≠ [8] ∧
    tagAEAD.dec [3] (List.replicate 12 1)
      (tagAEAD.enc [3] (List.replicate 12 1) [9] [7]) [8] = none ∧
    (PHIEncryption.encrypt tagAEAD ⟨none, [], some [3]⟩ (fun _ => none) []
      (List.replicate 12 1) [9] (some [7]) =
      .ok (b64EncodeRaw (List.replicate 12 1 ++
        tagAEAD.enc [3] (List.replicate 12 1) [9] [7]),
        ⟨none, [], some [3]⟩) ∧
    PHIEncryption.decrypt tagAEAD ⟨none, [], some [3]⟩ (fun _ => none) []
      (b64EncodeRaw (List.replicate 12 1 ++
        tagAEAD.enc [3] (List.replicate 12 1) [9] [7])) (some [8]) =
      .error .authFailure) :=
  ⟨by decide, by decide,
    decrypt_wrong_aad_auth_failure tagAEAD none [] [3] []
      (List.replicate 12 1) [9] [7] [8] (fun _ => none) (by decide)
      (by decide) (by decide) (by decide) (by decide) (by decide)⟩

/-- C3.  The claim that the key is cached for the process lifetime fails
on the code in the development branch: with no Key Vault configured,
`_get_encryption_key` returns the fresh random draw and leaves
`_key_cache` empty (the returned state is unchanged), so two successive
calls return the two distinct draws `k1` and `k2` rather than one
per-process key.  The last conjunct records the part of the claim the
code does satisfy: once `_key_cache` holds a key, every call returns
exactly that key with the state unchanged (the Key Vault branch does
cache). -/
theorem dev_key_not_cached_per_call (name k1 k2 fresh k : Bytes)
    (url : Option Bytes) (vault : Bytes → Option Bytes)
    (hne : k1 ≠ k2) (hk : k ≠ []) :
    PHIEncryption.getEncryptionKey ⟨none, name, none⟩ vault k1 =
      .ok (k1, ⟨none, name, none⟩) ∧
    PHIEncryption.getEncryptionKey ⟨none, name, none⟩ vault k2 =
      .ok (k2, ⟨none, name, none⟩) ∧
    k1 ≠ k2 ∧
    PHIEncryption.getEncryptionKey ⟨url, name, some k⟩ vault fresh =
      .ok (k, ⟨url, name, some k⟩) :=
  ⟨getKey_dev name vault k1, getKey_dev name vault k2, hne,
    getKey_cached url name k vault fresh hk⟩

theorem dev_key_not_cached_per_call_witness :
    ([1] : Bytes) ≠ [2] ∧
    (PHIEncryption.getEncryptionKey ⟨none, [110], none⟩ (fun _ => none) [1] =
      .ok ([1], ⟨none, [110], none⟩) ∧
    PHIEncryption.getEncryptionKey ⟨none, [110], none⟩ (fun _ => none) [2] =
      .ok ([2], ⟨none, [110], none⟩) ∧
    ([1] : Bytes) ≠ [2] ∧
    PHIEncryption.getEncryptionKey ⟨none, [110], some [9]⟩ (fun _ => none)
      [1] = .ok ([9], ⟨none, [110], some [9]⟩)) :=
  ⟨by decide,
    dev_key_not_cached_per_call [110] [1] [2] [1] [9] none (fun _ => none)
      (by decide) (by decide)⟩

/-- C7.  The envelope is exactly `base64(nonce (12 bytes) + GCM output)`:
`encrypt` emits the base64 encoding of the 12-byte nonce followed by the
AES-GCM ciphertext-plus-tag (and base64-decoding the envelope returns
precisely that concatenation, whose first 12 bytes are the nonce and
whose remainder is the GCM output); and `decrypt`, on any envelope
whose base64 decoding is `bs`, hands exactly `bs.take 12` as the nonce
and `bs.drop 12` as ciphertext-plus-tag to AES-GCM, succeeding or
failing with its verdict.  (The 16-byte tag length inside the GCM output
is the library's fixed tag size and is not a property of this code.) -/
theorem envelope_layout (A : AEADImpl) (self self1 : PHIEncryption)
    (vault : Bytes → Option Bytes) (fresh k nonce pt : Bytes)
    (aad : Option Bytes) (env bs : Bytes)
    (hkey : self.getEncryptionKey vault fresh = .ok (k, self1))
    (hn : nonce.length = 12) (hnb : ∀ b ∈ nonce, b < 256)
    (hcb : ∀ b ∈ A.enc k nonce pt (aadBytes aad), b < 256)
    (hbs : b64DecodeRaw env = some bs) :
    PHIEncryption.encrypt A self vault fresh nonce pt aad =
      .ok (b64EncodeRaw (nonce ++ A.enc k nonce pt (aadBytes aad)),
        self1) ∧
    b64DecodeRaw (b64EncodeRaw (nonce ++ A.enc k nonce pt (aadBytes aad))) =
      some (nonce ++ A.enc k nonce pt (aadBytes aad)) ∧
    (nonce ++ A.enc k nonce pt (aadBytes aad)).take 12 = nonce ∧
    (nonce ++ A.enc k nonce pt (aadBytes aad)).drop 12 =
      A.enc k nonce pt (aadBytes aad) ∧
    PHIEncryption.decrypt A self vault fresh env aad =
      (match A.dec k (bs.take 12) (bs.drop 12) (aadBytes aad) with
        | none => .error .authFailure
        | some pt2 => .ok (pt2, self1)) := by
  have hball : ∀ b ∈ nonce ++ A.enc k nonce pt (aadBytes aad), b < 256 := by
    intro b hb
    rcases List.mem_append.mp hb with h | h
    · exact hnb b h
    · exact hcb b h
  refine ⟨?_, b64DecodeRaw_encodeRaw _ hball, take12_append _ _ hn,
    drop12_append _ _ hn, ?_⟩
  · simp [PHIEncryption.encrypt, hkey]
  · simp [PHIEncryption.decrypt, hkey, hbs]

theorem envelope_layout_witness :
    PHIEncryption.getEncryptionKey ⟨none, [], none⟩ (fun _ => none) [1] =
      .ok ([1], ⟨none, [], none⟩) ∧
    b64DecodeRaw (b64EncodeRaw (List.replicate 12 0 ++
      idAEAD.enc [1] (List.replicate 12 0) [2] (aadBytes (some [3])))) =
      some (List.replicate 12 0 ++
        idAEAD.enc [1] (List.replicate 12 0) [2] (aadBytes (some [3]))) ∧
    (PHIEncryption.encrypt idAEAD ⟨none, [], none⟩ (fun _ => none) [1]
      (List.replicate 12 0) [2] (some [3]) =
      .ok (b64EncodeRaw (List.replicate 12 0 ++
        idAEAD.enc [1] (List.replicate 12 0) [2] (aadBytes (some [3]))),
        ⟨none, [], none⟩) ∧
    b64DecodeRaw (b64EncodeRaw (List.replicate 12 0 ++
      idAEAD.enc [1] (List.replicate 12 0) [2] (aadBytes (some [3])))) =
      some (List.replicate 12 0 ++
        idAEAD.enc [1] (List.replicate 12 0) [2] (aadBytes (some [3]))) ∧
    (List.replicate 12 0 ++
      idAEAD.enc [1] (List.replicate 12 0) [2] (aadBytes (some [3]))).take
      12 = List.replicate 12 0 ∧
    (List.replicate 12 0 ++
      idAEAD.enc [1] (List.replicate 12 0) [2] (aadBytes (some [3]))).drop
      12 = idAEAD.enc [1] (List.replicate 12 0) [2] (aadBytes (some [3])) ∧
    PHIEncryption.decrypt idAEAD ⟨none, [], none⟩ (fun _ => none) [1]
      (b64EncodeRaw (List.replicate 12 0 ++
        idAEAD.enc [1] (List.replicate 12 0) [2] (aadBytes (some [3]))))
      (some [3]) =
      (match idAEAD.dec [1]
          ((List.replicate 12 0 ++ idAEAD.enc [1] (List.replicate 12 0) [2]
            (aadBytes (some [3]))).take 12)
          ((List.replicate 12 0 ++ idAEAD.enc [1] (List.replicate 12 0) [2]
            (aadBytes (some [3]))).drop 12)
          (aadBytes (some [3])) with
        | none => .error .authFailure
        | some pt2 => .ok (pt2, ⟨none, [], none⟩))) :=
  ⟨by decide, by decide,
    envelope_layout idAEAD ⟨none, [], none⟩ ⟨none, [], none⟩
      (fun _ => none) [1] [1] (List.replicate 12 0) [2] (some [3])
      (b64EncodeRaw (List.replicate 12 0 ++
        idAEAD.enc [1] (List.replicate 12 0) [2] (aadBytes (some [3]))))
      (List.replicate 12 0 ++
        idAEAD.enc [1] (List.replicate 12 0) [2] (aadBytes (some [3])))
      (by decide) (by decide) (by decide) (by decide) (by decide)⟩

/-- C9.  Modelling the per-call `os.urandom(12)` draw as an input: two
`encrypt` calls on the same plaintext and associated data under the same
state produce different envelopes whenever the two drawn nonces differ,
because the envelope embeds the nonce injectively (base64 of the
12-byte nonce followed by the GCM output). -/
theorem distinct_nonce_distinct_envelopes (A : AEADImpl)
    (self self1 : PHIEncryption) (vault : Bytes → Option Bytes)
    (fresh k n1 n2 pt : Bytes) (aad : Option Bytes)
    (hkey : self.getEncryptionKey vault fresh = .ok (k, self1))
    (h1 : n1.length = 12) (h2 : n2.length = 12) (hne : n1 ≠ n2)
    (hb1 : ∀ b ∈ n1, b < 256) (hb2 : ∀ b ∈ n2, b < 256)
    (hc1 : ∀ b ∈ A.enc k n1 pt (aadBytes aad), b < 256)
    (hc2 : ∀ b ∈ A.enc k n2 pt (aadBytes aad), b < 256) :
    PHIEncryption.encrypt A self vault fresh n1 pt aad ≠
      PHIEncryption.encrypt A self vault fresh n2 pt aad := by
  intro heq
  have hball1 : ∀ b ∈ n1 ++ A.enc k n1 pt (aadBytes aad), b < 256 := by
    intro b hb
    rcases List.mem_append.mp hb with h | h
    · exact hb1 b h
    · exact hc1 b h
  have hball2 : ∀ b ∈ n2 ++ A.enc k n2 pt (aadBytes aad), b < 256 := by
    intro b hb
    rcases List.mem_append.mp hb with h | h
    · exact hb2 b h
    · exact hc2 b h
  simp only [PHIEncryption.encrypt, hkey, Except.ok.injEq,
    Prod.mk.injEq] at heq
  have henv := heq.1
  have hd1 := b64DecodeRaw_encodeRaw _ hball1
  rw [henv, b64DecodeRaw_encodeRaw _ hball2] at hd1
  have hlists : n2 ++ A.enc k n2 pt (aadBytes aad) =
      n1 ++ A.enc k n1 pt (aadBytes aad) := by
    exact Option.some.injEq _ _ ▸ hd1
  have htake := congrArg (List.take 12) hlists
  rw [take12_append _ _ h1, take12_append _ _ h2] at htake
  exact hne htake.symm

theorem distinct_nonce_distinct_envelopes_witness :
    List.replicate 12 0 ≠ List.replicate 12 1 ∧
    PHIEncryption.encrypt idAEAD ⟨none, [], some [4]⟩ (fun _ => none) []
      (List.replicate 12 0) [2] none ≠
      PHIEncryption.encrypt idAEAD ⟨none, [], some [4]⟩ (fun _ => none) []
        (List.replicate 12 1) [2] none :=
  ⟨by decide,
    distinct_nonce_distinct_envelopes idAEAD ⟨none, [], some [4]⟩
      ⟨none, [], some [4]⟩ (fun _ => none) [] [4] (List.replicate 12 0)
      (List.replicate 12 1) [2] none (by decide) (by decide) (by decide)
      (by decide) (by decide) (by decide) (by decide) (by decide)⟩

/-- C6 (amended).  With the process key cached and the GCM round-trip
law for it (`hA`), encrypting the sensitive fields of a record and
decrypting them with the same sensitive set succeeds and produces
`sensMap sensitive data`: every sensitive, present, truthy field holds
`str(...)` of its original value — so string-valued fields are restored
exactly — while every other field (absent, falsy, or not listed)
survives unchanged, including its type.  Both directions are pure
functions of the input record (the source copies the dictionary before
updating), so the input is never mutated.  The claim as frozen fails
only in that a non-string sensitive value comes back as its `str(...)`
form rather than its original value (see the counterexample). -/
theorem fields_roundtrip_restores_str_form (A : AEADImpl)
    (vault : Bytes → Option Bytes) (url : Option Bytes)
    (name k fresh : Bytes) (sensitive : List Bytes) (data : Record)
    (nonces : List Bytes) (hk : k ≠ [])
    (hA : ∀ n pt aad, A.dec k n (A.enc k n pt aad) aad = some pt)
    (hnods : sensitive.Nodup) (hnodk : (data.map Prod.fst).Nodup)
    (hlen : sensitive.length ≤ nonces.length)
    (hn : ∀ nc ∈ nonces, nc.length = 12 ∧ ∀ b ∈ nc, b < 256)
    (hC : ∀ nc ∈ nonces, ∀ p ∈ data, p.1 ∈ sensitive →
      ∀ b ∈ A.enc k nc (pyStrOf p.2) p.1, b < 256) :
    ∃ data1 nonces1,
      FieldLevelEncryption.encryptFields A vault fresh ⟨url, name, some k⟩
        nonces data sensitive = .ok (data1, ⟨url, name, some k⟩, nonces1) ∧
      FieldLevelEncryption.decryptFields A vault fresh ⟨url, name, some k⟩
        data1 sensitive =
        .ok (sensMap sensitive data, ⟨url, name, some k⟩) :=
  fieldsRoundTrip_aux A vault url name k fresh hk hA sensitive data nonces
    hnods hnodk hlen hn hC

theorem fields_roundtrip_restores_str_form_witness :
    ([9] : Bytes) ≠ [] ∧
    sensMap [[97], [99]]
      [([97], PyValue.pyStr [120]), ([98], PyValue.pyInt 5),
        ([99], PyValue.pyStr [121])] =
      [([97], PyValue.pyStr [120]), ([98], PyValue.pyInt 5),
        ([99], PyValue.pyStr [121])] ∧
    (∃ data1 nonces1,
      FieldLevelEncryption.encryptFields idAEAD (fun _ => none) []
        ⟨none, [], some [9]⟩ [List.replicate 12 0, List.replicate 12 1]
        [([97], PyValue.pyStr [120]), ([98], PyValue.pyInt 5),
          ([99], PyValue.pyStr [121])] [[97], [99]] =
        .ok (data1, ⟨none, [], some [9]⟩, nonces1) ∧
      FieldLevelEncryption.decryptFields idAEAD (fun _ => none) []
        ⟨none, [], some [9]⟩ data1 [[97], [99]] =
        .ok (sensMap [[97], [99]]
          [([97], PyValue.pyStr [120]), ([98], PyValue.pyInt 5),
            ([99], PyValue.pyStr [121])], ⟨none, [], some [9]⟩)) :=
  ⟨by decide, by decide,
    fields_roundtrip_restores_str_form idAEAD (fun _ => none) none [] [9]
      [] [[97], [99]]
      [([97], PyValue.pyStr [120]), ([98], PyValue.pyInt 5),
        ([99], PyValue.pyStr [121])]
      [List.replicate 12 0, List.replicate 12 1] (by decide)
      (fun n pt aad => rfl) (by decide) (by decide) (by decide)
      (by decide) (by decide)⟩

/-- C6, counterexample to the claim as frozen: for the record
`{a: 5}` (the integer five) with sensitive set `{a}`, the
encrypt-then-decrypt round trip yields the string `"5"` (bytes `[53]`),
not the original integer — `encrypt_fields` coerces the value with
`str(...)` before encrypting and `decrypt_fields` stores the decrypted
string — so the round trip does not restore every encrypted field to
its original value. -/
theorem fields_roundtrip_int_counterexample :
    fieldsRoundTrip idAEAD (fun _ => none) [] ⟨none, [], some [9]⟩
      [List.replicate 12 0] [([97], PyValue.pyInt 5)] [[97]] =
      some [([97], PyValue.pyStr [53])] ∧
    PyValue.pyStr [53] ≠ PyValue.pyInt 5 := by
  constructor
  · decide
  · decide

/-- C10.  `encrypt_fields` touches a listed field only when it is
present and truthy: a present falsy value (here arbitrary `v` with
`pyTruthy v = false`, covering `None`, `""`, `0`, `False`) leaves the
record, the engine state and the nonce supply completely unchanged, and
`decrypt_fields` skips it identically; when a listed field is truthy it
is first coerced with `str(...)` — the plaintext handed to the cipher
engine is `pyStrOf u` — so a non-string sensitive value round-trips to
its string form (`setField data2 g (pyStr (pyStrOf u))`), not to its
original type. -/
theorem fields_falsy_skipped_and_str_coerced (A : AEADImpl)
    (vault : Bytes → Option Bytes) (url : Option Bytes)
    (name k fresh nonce : Bytes) (ns : List Bytes) (self : PHIEncryption)
    (data data2 : Record) (f g : Bytes) (v u : PyValue)
    (nonces : List Bytes) (hk : k ≠ [])
    (hgetf : getField data f = some v) (hfalsy : pyTruthy v = false)
    (hgetg : getField data2 g = some u) (htru : pyTruthy u = true)
    (hn12 : nonce.length = 12) (hnb : ∀ b ∈ nonce, b < 256)
    (hcb : ∀ b ∈ A.enc k nonce (pyStrOf u) (aadBytes (some g)), b < 256)
    (hdecu : A.dec k nonce (A.enc k nonce (pyStrOf u) (aadBytes (some g)))
      (aadBytes (some g)) = some (pyStrOf u)) :
    FieldLevelEncryption.encryptFields A vault fresh self nonces data [f] =
      .ok (data, self, nonces) ∧
    FieldLevelEncryption.decryptFields A vault fresh self data [f] =
      .ok (data, self) ∧
    FieldLevelEncryption.encryptFields A vault fresh ⟨url, name, some k⟩
      (nonce :: ns) data2 [g] =
      .ok (setField data2 g (PyValue.pyStr (b64EncodeRaw
        (nonce ++ A.enc k nonce (pyStrOf u) (aadBytes (some g))))),
        ⟨url, name, some k⟩, ns) ∧
    FieldLevelEncryption.decryptFields A vault fresh ⟨url, name, some k⟩
      (setField data2 g (PyValue.pyStr (b64EncodeRaw
        (nonce ++ A.enc k nonce (pyStrOf u) (aadBytes (some g)))))) [g] =
      .ok (setField data2 g (PyValue.pyStr (pyStrOf u)),
        ⟨url, name, some k⟩) := by
  have henvne : b64EncodeRaw (nonce ++ A.enc k nonce (pyStrOf u)
      (aadBytes (some g))) ≠ [] := by
    apply b64EncodeRaw_ne_nil
    intro habs
    have hlen0 := congrArg List.length habs
    simp only [List.length_append, List.length_nil] at hlen0
    omega
  have htruthy : pyTruthy (PyValue.pyStr (b64EncodeRaw
      (nonce ++ A.enc k nonce (pyStrOf u) (aadBytes (some g))))) = true := by
    simp [pyTruthy, List.isEmpty_iff, henvne]
  refine ⟨?_, ?_, ?_, ?_⟩
  · simp [FieldLevelEncryption.encryptFields, hgetf, hfalsy]
  · simp [FieldLevelEncryption.decryptFields, hgetf, hfalsy]
  · simp only [FieldLevelEncryption.encryptFields, hgetg, htru, if_true,
      List.headD_cons, List.tail_cons,
      encrypt_cached A url name k vault fresh nonce (pyStrOf u) (some g) hk]
  · have hget1 : getField (setField data2 g (PyValue.pyStr (b64EncodeRaw
        (nonce ++ A.enc k nonce (pyStrOf u) (aadBytes (some g)))))) g =
        some (PyValue.pyStr (b64EncodeRaw
          (nonce ++ A.enc k nonce (pyStrOf u) (aadBytes (some g))))) :=
      getField_setField_self data2 g _
    have hdec1 : PHIEncryption.decrypt A ⟨url, name, some k⟩ vault fresh
        (b64EncodeRaw (nonce ++ A.enc k nonce (pyStrOf u)
          (aadBytes (some g)))) (some g) =
        .ok (pyStrOf u, ⟨url, name, some k⟩) := by
      rw [decrypt_cached_envelope A url name k vault fresh nonce _ (some g)
        hk hn12 hnb hcb]
      rw [hdecu]
    simp only [FieldLevelEncryption.decryptFields, hget1, htruthy, if_true,
      hdec1, setField_setField]

theorem fields_falsy_skipped_and_str_coerced_witness :
    pyTruthy (PyValue.pyInt 0) = false ∧
    pyTruthy (PyValue.pyInt 7) = true ∧
    pyStrOf (PyValue.pyInt 7) = [55] ∧
    (FieldLevelEncryption.encryptFields idAEAD (fun _ => none) []
      ⟨none, [], none⟩ [] [([97], PyValue.pyInt 0)] [[97]] =
      .ok ([([97], PyValue.pyInt 0)], ⟨none, [], none⟩, []) ∧
    FieldLevelEncryption.decryptFields idAEAD (fun _ => none) []
      ⟨none, [], none⟩ [([97], PyValue.pyInt 0)] [[97]] =
      .ok ([([97], PyValue.pyInt 0)], ⟨none, [], none⟩) ∧
    FieldLevelEncryption.encryptFields idAEAD (fun _ => none) []
      ⟨none, [], some [9]⟩ (List.replicate 12 0 :: [])
      [([98], PyValue.pyInt 7)] [[98]] =
      .ok (setField [([98], PyValue.pyInt 7)] [98] (PyValue.pyStr
        (b64EncodeRaw (List.replicate 12 0 ++
          idAEAD.enc [9] (List.replicate 12 0) (pyStrOf (PyValue.pyInt 7))
            (aadBytes (some [98]))))), ⟨none, [], some [9]⟩, []) ∧
    FieldLevelEncryption.decryptFields idAEAD (fun _ => none) []
      ⟨none, [], some [9]⟩
      (setField [([98], PyValue.pyInt 7)] [98] (PyValue.pyStr
        (b64EncodeRaw (List.replicate 12 0 ++
          idAEAD.enc [9] (List.replicate 12 0) (pyStrOf (PyValue.pyInt 7))
            (aadBytes (some [98])))))) [[98]] =
      .ok (setField [([98], PyValue.pyInt 7)] [98]
        (PyValue.pyStr (pyStrOf (PyValue.pyInt 7))),
        ⟨none, [], some [9]⟩)) :=
  ⟨by decide, by decide, by decide,
    fields_falsy_skipped_and_str_coerced idAEAD (fun _ => none) none []
      [9] [] (List.replicate 12 0) [] ⟨none, [], none⟩
      [([97], PyValue.pyInt 0)] [([98], PyValue.pyInt 7)] [97] [98]
      (PyValue.pyInt 0) (PyValue.pyInt 7) [] (by decide) (by decide)
      (by decide) (by decide) (by decide) (by decide) (by decide)
      (by decide) (by decide)⟩

/-- A concrete audit event used by the audit witnesses (the other
fields keep their pydantic defaults). -/
def sampleEvent : AuditEvent :=
  { event_id := "e1", timestamp := ⟨2025, 1, 2⟩,
    event_type := AuditEventType.PHI_VIEW, action := "view" }

/-- C4.  With a durable backend configured and a healthy local sink,
`log_event` writes the serialized event create-only under the object
name `{YYYY}/{MM}/{DD}/{event_id}.json` (spelled out below via
`padNum`); a second `log_event` for the same event against the
resulting store finds the name taken, so the create-only upload fails —
but that durable-write failure is swallowed inside
`_write_to_storage` (store unchanged, no error to the caller) and the
local sink still receives the record. -/
theorem log_event_append_only_swallows_duplicate (L : AuditLogger)
    (dump : AuditEvent → String) (st : BlobStore)
    (localSink : List LocalLogRecord) (e : AuditEvent)
    (hcc : L.container_configured = true) (hlb : L.local_backup = true)
    (hfresh : st.any (fun p => p.1 = blobName e) = false) :
    L.log_event true true dump st localSink e =
      .ok ((padNum 4 e.timestamp.year ++ "/" ++ padNum 2 e.timestamp.month
        ++ "/" ++ padNum 2 e.timestamp.day ++ "/" ++ e.event_id ++ ".json",
        dump e) :: st, localSink ++ [localRecordOf e]) ∧
    L.log_event true true dump ((blobName e, dump e) :: st)
        (localSink ++ [localRecordOf e]) e =
      .ok ((blobName e, dump e) :: st,
        (localSink ++ [localRecordOf e]) ++ [localRecordOf e]) := by
  constructor
  · have h := hfresh
    simp only [blobName, datePartition] at h
    simp [AuditLogger.log_event, writeToStorage, uploadBlob, hcc, hlb, h,
      blobName, datePartition]
  · simp [AuditLogger.log_event, writeToStorage, uploadBlob, hcc, hlb]

theorem log_event_append_only_swallows_duplicate_witness :
    (([] : BlobStore).any (fun p => p.1 = blobName sampleEvent) = false) ∧
    blobName sampleEvent = "2025/01/02/e1.json" ∧
    (AuditLogger.log_event ⟨true, true, "audit-logs"⟩ true true
      (fun _ => "{}") [] [] sampleEvent =
      .ok ([(padNum 4 sampleEvent.timestamp.year ++ "/" ++
        padNum 2 sampleEvent.timestamp.month ++ "/" ++
        padNum 2 sampleEvent.timestamp.day ++ "/" ++
        sampleEvent.event_id ++ ".json", "{}")],
        [] ++ [localRecordOf sampleEvent]) ∧
    AuditLogger.log_event ⟨true, true, "audit-logs"⟩ true true
      (fun _ => "{}") [(blobName sampleEvent, "{}")]
      ([] ++ [localRecordOf sampleEvent]) sampleEvent =
      .ok ([(blobName sampleEvent, "{}")],
        ([] ++ [localRecordOf sampleEvent]) ++
          [localRecordOf sampleEvent])) :=
  ⟨by decide, by decide,
    log_event_append_only_swallows_duplicate ⟨true, true, "audit-logs"⟩
      (fun _ => "{}") [] [] sampleEvent rfl rfl (by decide)⟩

/-- C5 (amended).  When the local backup sink is enabled (the
constructor default), `log_event` attempts the local synchronous
emission before any durable write: if the local emission fails, the
call fails with the local-emit error for every durable-backend state
(`reachable` and the store are universally quantified, so the durable
backend is never consulted), propagating the failure to the caller.
The claim as frozen says "always"; with `local_backup=False` the local
sink is skipped entirely (see the counterexample). -/
theorem log_event_local_first_propagates (L : AuditLogger)
    (reachable : Bool) (dump : AuditEvent → String) (st : BlobStore)
    (localSink : List LocalLogRecord) (e : AuditEvent)
    (hlb : L.local_backup = true) :
    L.log_event reachable false dump st localSink e =
      .error .localEmitFailure := by
  simp [AuditLogger.log_event, hlb]

theorem log_event_local_first_propagates_witness :
    (AuditLogger.local_backup ⟨true, true, "audit-logs"⟩ = true) ∧
    AuditLogger.log_event ⟨true, true, "audit-logs"⟩ true false
      (fun _ => "{}") [] [] sampleEvent = .error .localEmitFailure :=
  ⟨rfl,
    log_event_local_first_propagates ⟨true, true, "audit-logs"⟩ true
      (fun _ => "{}") [] [] sampleEvent rfl⟩

/-- C5, counterexample to the claim as frozen: with
`local_backup=False`, `log_event` does not attempt the local emission at
all — even with a broken local sink (`localOk = false`) it returns
normally, performs the durable write, and the local sink receives
nothing — so local emission is not "always attempted first" and a local
sink failure is not propagated. -/
theorem log_event_no_local_backup_counterexample :
    AuditLogger.log_event ⟨true, false, "audit-logs"⟩ true false
      (fun _ => "{}") [] [] sampleEvent =
      .ok ([("2025/01/02/e1.json", "{}")], []) := by
  decide

/-- C8 (amended).  `_get_phi_event_type` matches the action
case-insensitively (the source looks up `action.lower()`): the seven
recognized lowercase actions map as the claim lists, and every action
whose lowercased form is unrecognized defaults to `PHI_VIEW`; the event
built by `log_phi_access` has severity `WARNING` exactly when the
result is not `"success"`, and `log_authentication` builds
`LOGIN_SUCCESS`/`INFO` on success and `LOGIN_FAILURE`/`WARNING` on
failure.  The claim as frozen matches action strings literally, which
fails on mixed-case actions such as `"Delete"` (see the
counterexample). -/
theorem phi_event_type_and_severity (action result eid uid ph rt rid : String)
    (ts : PyDatetime) (ip : Option String) (md : List (String × String))
    (rs : Option String)
    (hun : asciiLower action ∉
      ["view", "read", "create", "update", "modify", "delete", "export"]) :
    AuditLogger.getPhiEventType action = .PHI_VIEW ∧
    AuditLogger.getPhiEventType "view" = .PHI_VIEW ∧
    AuditLogger.getPhiEventType "read" = .PHI_VIEW ∧
    AuditLogger.getPhiEventType "create" = .PHI_CREATE ∧
    AuditLogger.getPhiEventType "update" = .PHI_UPDATE ∧
    AuditLogger.getPhiEventType "modify" = .PHI_UPDATE ∧
    AuditLogger.getPhiEventType "delete" = .PHI_DELETE ∧
    AuditLogger.getPhiEventType "export" = .PHI_EXPORT ∧
    (phiAccessEvent eid ts uid ph action rt rid result ip md).event_type =
      AuditLogger.getPhiEventType action ∧
    ((phiAccessEvent eid ts uid ph action rt rid result ip md).severity =
      .WARNING ↔ result ≠ "success") ∧
    (authenticationEvent eid ts uid true ip rs).event_type =
      .LOGIN_SUCCESS ∧
    (authenticationEvent eid ts uid true ip rs).severity = .INFO ∧
    (authenticationEvent eid ts uid false ip rs).event_type =
      .LOGIN_FAILURE ∧
    (authenticationEvent eid ts uid false ip rs).severity = .WARNING := by
  have h1 : asciiLower action ≠ "view" := fun hh => hun (by rw [hh]; decide)
  have h2 : asciiLower action ≠ "read" := fun hh => hun (by rw [hh]; decide)
  have h3 : asciiLower action ≠ "create" :=
    fun hh => hun (by rw [hh]; decide)
  have h4 : asciiLower action ≠ "update" :=
    fun hh => hun (by rw [hh]; decide)
  have h5 : asciiLower action ≠ "modify" :=
    fun hh => hun (by rw [hh]; decide)
  have h6 : asciiLower action ≠ "delete" :=
    fun hh => hun (by rw [hh]; decide)
  have h7 : asciiLower action ≠ "export" :=
    fun hh => hun (by rw [hh]; decide)
  refine ⟨?_, by decide, by decide, by decide, by decide, by decide,
    by decide, by decide, rfl, ?_, rfl, rfl, rfl, rfl⟩
  · simp [AuditLogger.getPhiEventType, h1, h2, h3, h4, h5, h6, h7]
  · by_cases hr : result = "success" <;>
      simp [phiAccessEvent, hr]

theorem phi_event_type_and_severity_witness :
    asciiLower "Archive" ∉
      ["view", "read", "create", "update", "modify", "delete", "export"] ∧
    (AuditLogger.getPhiEventType "Archive" = .PHI_VIEW ∧
    AuditLogger.getPhiEventType "view" = .PHI_VIEW ∧
    AuditLogger.getPhiEventType "read" = .PHI_VIEW ∧
    AuditLogger.getPhiEventType "create" = .PHI_CREATE ∧
    AuditLogger.getPhiEventType "update" = .PHI_UPDATE ∧
    AuditLogger.getPhiEventType "modify" = .PHI_UPDATE ∧
    AuditLogger.getPhiEventType "delete" = .PHI_DELETE ∧
    AuditLogger.getPhiEventType "export" = .PHI_EXPORT ∧
    (phiAccessEvent "e2" ⟨2025, 1, 2⟩ "dr_smith" "h1" "Archive" "encounter"
      "enc_1" "denied" none []).event_type =
      AuditLogger.getPhiEventType "Archive" ∧
    ((phiAccessEvent "e2" ⟨2025, 1, 2⟩ "dr_smith" "h1" "Archive" "encounter"
      "enc_1" "denied" none []).severity = .WARNING ↔
      ("denied" : String) ≠ "success") ∧
    (authenticationEvent "e3" ⟨2025, 1, 2⟩ "dr_smith" true none
      none).event_type = .LOGIN_SUCCESS ∧
    (authenticationEvent "e3" ⟨2025, 1, 2⟩ "dr_smith" true none
      none).severity = .INFO ∧
    (authenticationEvent "e3" ⟨2025, 1, 2⟩ "dr_smith" false none
      none).event_type = .LOGIN_FAILURE ∧
    (authenticationEvent "e3" ⟨2025, 1, 2⟩ "dr_smith" false none
      none).severity = .WARNING) :=
  ⟨by decide,
    phi_event_type_and_severity "Archive" "denied" "e2" "dr_smith" "h1"
      "encounter" "enc_1" ⟨2025, 1, 2⟩ none [] none (by decide)⟩

/-- C8, counterexample to the claim as frozen: the action `"Delete"` is
none of the seven literal action strings of the claim, so by the claim
it is unrecognized and should default to `PHI_VIEW`; the code lowercases
first and maps it to `PHI_DELETE`. -/
theorem phi_event_action_case_counterexample :
    AuditLogger.getPhiEventType "Delete" = AuditEventType.PHI_DELETE ∧
    ("Delete" : String) ∉
      ["view", "read", "create", "update", "modify", "delete", "export"] ∧
    AuditEventType.PHI_DELETE ≠ AuditEventType.PHI_VIEW := by
  refine ⟨by decide, by decide, by decide⟩
